import Mathlib

/-!
# Verification of TSDuck PSI/SI codec and plugin properties

Shallow embedding of the parts of the TSDuck source (2017 snapshot) that the
verified properties talk about:

* `ts::Descriptor` (tsDescriptor.cpp) — raw tag/length/value descriptors;
* `ts::AC3Descriptor` (tsAC3Descriptor.cpp) — binary and XML codec;
* `ts::DescriptorList` (tsDescriptorList.cpp) — PDS scoping on insert/remove;
* `ts::EIT` (tsEIT.cpp) — event packing into long sections;
* the `pcrverify`, `pcrextract` and `clear` plugins (tsplugins/).

Bytes are modelled as natural numbers; machine arithmetic is made explicit
with `% 256` (uint8), `% 65536` (uint16) where the C++ code truncates.
-/

namespace TSDuck

/-- A byte block: a list of naturals, each intended to be `< 256`. -/
abbrev ByteBlock := List Nat

/-- All values of a byte block are genuine bytes. -/
def ByteBlock.wf (b : ByteBlock) : Prop := ∀ x ∈ b, x < 256

instance (b : ByteBlock) : Decidable (ByteBlock.wf b) := by
  unfold ByteBlock.wf; infer_instance

/-! ## `ts::Descriptor` (tsDescriptor.cpp)

A `Descriptor` holds a byte block `tag | length | payload` or, when
construction fails the validity check, no data at all (`_data` null).
We model the `_data` pointer as an `Option ByteBlock`.

Constructor from raw bytes (tsDescriptor.cpp lines 44-52):
`_data = size >= 2 && size < 258 && addr[1] == size - 2 ? new ByteBlock(addr, size) : 0`. -/

/-- The validity condition checked by `ts::Descriptor::Descriptor(const void*, size_t)`
and by the `ByteBlockPtr` constructor: `size >= 2 && size < 258 && data[1] == size - 2`. -/
def descValid (b : ByteBlock) : Prop :=
  2 ≤ b.length ∧ b.length < 258 ∧ b.getD 1 0 = b.length - 2

instance (b : ByteBlock) : Decidable (descValid b) := by
  unfold descValid; infer_instance

/-- Model of `ts::Descriptor`: the refcounted `_data` block, null on failure. -/
abbrev Descriptor := Option ByteBlock

/-- `ts::Descriptor::Descriptor(const void* addr, size_t size)`. -/
def Descriptor.fromBytes (b : ByteBlock) : Descriptor :=
  if descValid b then some b else none

/-- `ts::Descriptor::isValid()`: `!_data.isNull()`. -/
def Descriptor.isValid (d : Descriptor) : Bool := d.isSome

/-- `ts::Descriptor::tag()`: first byte (0 when invalid; the C++ code would not
call it on an invalid descriptor). -/
def Descriptor.tag (d : Descriptor) : Nat :=
  match d with
  | some b => b.getD 0 0
  | none => 0

/-- `ts::Descriptor::payloadSize()`: `_data->size() - 2`. -/
def Descriptor.payloadSize (d : Descriptor) : Nat :=
  match d with
  | some b => b.length - 2
  | none => 0

/-- `ts::Descriptor::payload()`: bytes after the 2-byte header. -/
def Descriptor.payload (d : Descriptor) : ByteBlock :=
  match d with
  | some b => b.drop 2
  | none => []

/-! ## `ts::AC3Descriptor` (tsAC3Descriptor.cpp) -/

/-- DVB AC-3 descriptor tag `DID_AC3`. -/
def DID_AC3 : Nat := 0x6A

/-- Field state of `ts::AC3Descriptor`: four optional one-byte fields and the
trailing `additional_info` bytes, plus the `_is_valid` flag of
`AbstractDescriptor`. -/
structure AC3Descriptor where
  component_type : Option Nat
  bsid : Option Nat
  mainid : Option Nat
  asvc : Option Nat
  additional_info : ByteBlock
  is_valid : Bool
  deriving Repr, DecidableEq

/-- Bytes contributed by an optional one-byte field during serialization. -/
def optByte (o : Option Nat) : ByteBlock :=
  match o with
  | some v => [v]
  | none => []

/-- `ts::AC3Descriptor::serialize` (tsAC3Descriptor.cpp lines 106-133): flags
byte built from the `set()` states, then the present optional bytes in order,
then `additional_info`; first two bytes are the tag and the length. -/
def AC3Descriptor.serialize (d : AC3Descriptor) : ByteBlock :=
  let payload : ByteBlock :=
    ((if d.component_type.isSome then 0x80 else 0) +
     (if d.bsid.isSome then 0x40 else 0) +
     (if d.mainid.isSome then 0x20 else 0) +
     (if d.asvc.isSome then 0x10 else 0)) ::
    (optByte d.component_type ++ optByte d.bsid ++
     optByte d.mainid ++ optByte d.asvc ++ d.additional_info)
  DID_AC3 :: payload.length :: payload

/-- One conditional field read of `ts::AC3Descriptor::deserialize`:
`if ((flags & mask) != 0 && size >= 1) { field = *data; data++; size--; }`. -/
def readOpt (cond : Bool) (l : ByteBlock) : Option Nat × ByteBlock :=
  if cond then
    match l with
    | x :: ls => (some x, ls)
    | [] => (none, [])
  else (none, l)

/-- `ts::AC3Descriptor::deserialize` (tsAC3Descriptor.cpp lines 140-173).
Validity requires a valid descriptor with tag `DID_AC3` and at least one
payload byte; on failure all fields are reset. -/
def AC3Descriptor.deserialize (desc : Descriptor) : AC3Descriptor :=
  if desc.isValid ∧ desc.tag = DID_AC3 ∧ 1 ≤ desc.payloadSize then
    match desc.payload with
    | [] => ⟨none, none, none, none, [], true⟩  -- unreachable: payloadSize ≥ 1
    | flags :: rest =>
      let r1 := readOpt (decide (flags &&& 0x80 ≠ 0)) rest
      let r2 := readOpt (decide (flags &&& 0x40 ≠ 0)) r1.2
      let r3 := readOpt (decide (flags &&& 0x20 ≠ 0)) r2.2
      let r4 := readOpt (decide (flags &&& 0x10 ≠ 0)) r3.2
      ⟨r1.1, r2.1, r3.1, r4.1, r4.2, true⟩
  else
    ⟨none, none, none, none, [], false⟩

/-- `ts::AC3Descriptor::fromXML` (tsAC3Descriptor.cpp lines 241-250).
Modelled from the spec: the XML accessors (`getOptionalIntAttribute`,
`getHexaTextChild`) are not part of the analysed sources; per the spec's
structured-form contract, an optional integer attribute that is present maps
to the corresponding optional field and an absent one to an absent field,
and the optional `additional_info` hexadecimal child maps to the byte block. -/
def AC3Descriptor.fromXML (ct bsid mainid asvc : Option Nat)
    (additional_info : ByteBlock) : AC3Descriptor :=
  ⟨ct, bsid, mainid, asvc, additional_info, true⟩

/-- Number of optional field bytes requested by the four flag bits of the
first payload byte of an AC-3 descriptor. -/
def numFlagBytes (flags : Nat) : Nat :=
  (if flags &&& 0x80 ≠ 0 then 1 else 0) +
  (if flags &&& 0x40 ≠ 0 then 1 else 0) +
  (if flags &&& 0x20 ≠ 0 then 1 else 0) +
  (if flags &&& 0x10 ≠ 0 then 1 else 0)

end TSDuck

namespace TSDuck

/-! ### Theorems: descriptor validity (C10) -/

/-- Claim C10: a `Descriptor` built from a raw buffer of size `s` is valid iff
`2 ≤ s ≤ 257` and the second byte equals `s - 2`; otherwise it holds no data
and `isValid()` is false. -/
theorem descriptor_fromBytes_valid_iff (b : ByteBlock) :
    ((Descriptor.fromBytes b).isValid = true ↔
      (2 ≤ b.length ∧ b.length ≤ 257 ∧ b.getD 1 0 = b.length - 2)) ∧
    (¬ (2 ≤ b.length ∧ b.length ≤ 257 ∧ b.getD 1 0 = b.length - 2) →
      Descriptor.fromBytes b = none ∧ (Descriptor.fromBytes b).isValid = false) := by
  constructor
  · unfold Descriptor.fromBytes Descriptor.isValid descValid
    by_cases h : 2 ≤ b.length ∧ b.length < 258 ∧ b.getD 1 0 = b.length - 2
    · simp only [if_pos h, Option.isSome_some]
      constructor
      · intro _; exact ⟨h.1, by omega, h.2.2⟩
      · intro _; trivial
    · simp only [if_neg h, Option.isSome_none]
      constructor
      · intro hc; cases hc
      · intro hc; exact absurd ⟨hc.1, by omega, hc.2.2⟩ h
  · intro h
    unfold Descriptor.fromBytes Descriptor.isValid descValid
    have h' : ¬ (2 ≤ b.length ∧ b.length < 258 ∧ b.getD 1 0 = b.length - 2) := by
      intro hc; exact h ⟨hc.1, by omega, hc.2.2⟩
    simp only [if_neg h', Option.isSome_none]
    exact ⟨by trivial, by trivial⟩

end TSDuck

namespace TSDuck

/-- Closed instance of `descriptor_fromBytes_valid_iff`: a one-byte buffer
yields an invalid, data-less descriptor. -/
theorem descriptor_fromBytes_valid_iff_witness :
    Descriptor.fromBytes [0x6A] = none :=
  ((descriptor_fromBytes_valid_iff [0x6A]).2 (by decide)).1

/-! ### Theorems: AC-3 descriptor binary round trip (C1) -/

/-- Behaviour of one conditional optional-field read: the field is present iff
the flag bit was set, and re-emitting the field byte in front of the leftover
bytes restores the input. -/
theorem readOpt_spec (b : Bool) (l : ByteBlock) (h : b = true → l ≠ []) :
    (readOpt b l).1.isSome = b ∧
    optByte (readOpt b l).1 ++ (readOpt b l).2 = l ∧
    (readOpt b l).2.length + (if b then 1 else 0) = l.length := by
  cases b with
  | false => simp [readOpt, optByte]
  | true =>
    have hl : l ≠ [] := h rfl
    match l with
    | [] => exact absurd rfl hl
    | x :: ls => simp [readOpt, optByte]

/-- Reconstruction of the flags byte: when the low nibble is zero, rebuilding
the byte from its four tested bits gives the byte back. -/
theorem flags_rebuild (flags : Nat) (hlt : flags < 256) (hlow : flags &&& 0x0F = 0) :
    ((if decide (flags &&& 0x80 ≠ 0) = true then 0x80 else 0) +
     (if decide (flags &&& 0x40 ≠ 0) = true then 0x40 else 0) +
     (if decide (flags &&& 0x20 ≠ 0) = true then 0x20 else 0) +
     (if decide (flags &&& 0x10 ≠ 0) = true then 0x10 else 0)) = flags := by
  have hmod : flags % 16 = 0 := by
    have h16 := Nat.and_pow_two_sub_one_eq_mod flags 4
    norm_num at h16
    rw [h16] at hlow
    exact hlow
  obtain ⟨k, hk⟩ : ∃ k, flags = 16 * k := ⟨flags / 16, by omega⟩
  have hk16 : k < 16 := by omega
  subst hk
  interval_cases k <;> decide

/-- Claim C1: AC-3 descriptor deserialisation followed by serialisation
reproduces the input byte for byte, for every well-formed wire input: tag
`0x6A`, length byte consistent with the buffer size, low-order (reserved)
flag bits zero, and at least as many payload bytes after the flags byte as
there are set flag bits. -/
theorem ac3_serialize_deserialize_roundtrip (flags : Nat) (rest : ByteBlock)
    (hrest : rest.length ≤ 254) (hflags : flags < 256)
    (hlow : flags &&& 0x0F = 0) (hcnt : numFlagBytes flags ≤ rest.length) :
    AC3Descriptor.serialize
      (AC3Descriptor.deserialize
        (Descriptor.fromBytes (0x6A :: (rest.length + 1) :: flags :: rest))) =
      0x6A :: (rest.length + 1) :: flags :: rest := by
  -- The constructed descriptor is valid.
  have hvalid : descValid (0x6A :: (rest.length + 1) :: flags :: rest) := by
    refine ⟨by simp, by simp; omega, by simp⟩
  have hfb : Descriptor.fromBytes (0x6A :: (rest.length + 1) :: flags :: rest) =
      some (0x6A :: (rest.length + 1) :: flags :: rest) := by
    unfold Descriptor.fromBytes
    rw [if_pos hvalid]
  rw [hfb]
  -- Deserialisation is in the valid branch with payload `flags :: rest`.
  have hcond : (Descriptor.isValid (some (0x6A :: (rest.length + 1) :: flags :: rest)) = true ∧
      Descriptor.tag (some (0x6A :: (rest.length + 1) :: flags :: rest)) = DID_AC3 ∧
      1 ≤ Descriptor.payloadSize (some (0x6A :: (rest.length + 1) :: flags :: rest))) := by
    refine ⟨rfl, rfl, ?_⟩
    simp [Descriptor.payloadSize]
  rw [AC3Descriptor.deserialize, if_pos hcond]
  have hpl : Descriptor.payload (some (0x6A :: (rest.length + 1) :: flags :: rest)) =
      flags :: rest := rfl
  rw [hpl]
  -- Abbreviations for the four conditional reads and their byte counts.
  set b1 := decide (flags &&& 0x80 ≠ 0) with hb1
  set b2 := decide (flags &&& 0x40 ≠ 0) with hb2
  set b3 := decide (flags &&& 0x20 ≠ 0) with hb3
  set b4 := decide (flags &&& 0x10 ≠ 0) with hb4
  set c1 : Nat := if b1 = true then 1 else 0 with hc1
  set c2 : Nat := if b2 = true then 1 else 0 with hc2
  set c3 : Nat := if b3 = true then 1 else 0 with hc3
  set c4 : Nat := if b4 = true then 1 else 0 with hc4
  have hcnt' : c1 + c2 + c3 + c4 ≤ rest.length := by
    rw [hc1, hc2, hc3, hc4, hb1, hb2, hb3, hb4]
    simpa [numFlagBytes] using hcnt
  -- Chain the four reads.
  have s1 := readOpt_spec b1 rest (by
    intro hb hnil
    have hcv : c1 = 1 := by rw [hc1, hb]; simp
    have hln : rest.length = 0 := by rw [hnil]; simp
    omega)
  set l1 := (readOpt b1 rest).2 with hl1
  have hlen1 : l1.length + c1 = rest.length := by rw [hc1]; exact s1.2.2
  have s2 := readOpt_spec b2 l1 (by
    intro hb hnil
    have hcv : c2 = 1 := by rw [hc2, hb]; simp
    have hln : l1.length = 0 := by rw [hnil]; simp
    omega)
  set l2 := (readOpt b2 l1).2 with hl2
  have hlen2 : l2.length + c2 = l1.length := by rw [hc2]; exact s2.2.2
  have s3 := readOpt_spec b3 l2 (by
    intro hb hnil
    have hcv : c3 = 1 := by rw [hc3, hb]; simp
    have hln : l2.length = 0 := by rw [hnil]; simp
    omega)
  set l3 := (readOpt b3 l2).2 with hl3
  have hlen3 : l3.length + c3 = l2.length := by rw [hc3]; exact s3.2.2
  have s4 := readOpt_spec b4 l3 (by
    intro hb hnil
    have hcv : c4 = 1 := by rw [hc4, hb]; simp
    have hln : l3.length = 0 := by rw [hnil]; simp
    omega)
  set l4 := (readOpt b4 l3).2 with hl4
  -- Serialisation rebuilds the payload.
  unfold AC3Descriptor.serialize
  simp only
  rw [s1.1, s2.1, s3.1, s4.1]
  have hrec : optByte (readOpt b1 rest).1 ++ (optByte (readOpt b2 l1).1 ++
      (optByte (readOpt b3 l2).1 ++ (optByte (readOpt b4 l3).1 ++ l4))) = rest := by
    rw [s4.2.1, s3.2.1, s2.2.1, s1.2.1]
  have hflag : ((if b1 = true then 0x80 else 0) + (if b2 = true then 0x40 else 0) +
      (if b3 = true then 0x20 else 0) + (if b4 = true then 0x10 else 0)) = flags := by
    rw [hb1, hb2, hb3, hb4]
    exact flags_rebuild flags hflags hlow
  simp only [List.append_assoc] at hrec ⊢
  rw [hrec, hflag]
  simp [DID_AC3]

/-- Closed instance of the AC-3 round trip at the concrete wire input
`6A 03 C0 42 08`. -/
theorem ac3_serialize_deserialize_roundtrip_witness :
    AC3Descriptor.serialize
      (AC3Descriptor.deserialize (Descriptor.fromBytes [0x6A, 0x03, 0xC0, 0x42, 0x08])) =
      [0x6A, 0x03, 0xC0, 0x42, 0x08] :=
  ac3_serialize_deserialize_roundtrip 0xC0 [0x42, 0x08]
    (by decide) (by decide) (by decide) (by decide)

/-! ### Theorems: AC-3 structured input S2 (C5) -/

/-- Claim C5: the structured element `<AC3_descriptor component_type="0x42"
bsid="8"/>` deserialises to an `AC3Descriptor` whose binary serialisation is
exactly the five bytes `6A 03 C0 42 08`. -/
theorem ac3_fromXML_serialize_S2 :
    AC3Descriptor.serialize
      (AC3Descriptor.fromXML (some 0x42) (some 8) none none []) =
      [0x6A, 0x03, 0xC0, 0x42, 0x08] := by
  decide

end TSDuck

namespace TSDuck

/-! ## `pcrverify` plugin (tsplugin_pcrverify.cpp) -/

/-- TS packet size in bytes (`ts::PKT_SIZE`). -/
def PKT_SIZE : Int := 188

/-- MPEG system clock frequency in Hz (`ts::SYSTEM_CLOCK_FREQ`). -/
def SYSTEM_CLOCK_FREQ : Int := 27000000

/-- The anonymous-namespace `jitter` function of tsplugin_pcrverify.cpp
(lines 226-252).  All operands are `int64_t`; C++ integer division truncates
towards zero, which is `Int.tdiv`. -/
def jitter (pcr1 pkt1 pcr2 pkt2 bitrate : Int) : Int :=
  if bitrate = 0 then 0
  else (bitrate * (pcr2 - pcr1) - (pkt2 - pkt1) * PKT_SIZE * 8 * SYSTEM_CLOCK_FREQ).tdiv bitrate

/-! ## `pcrextract` plugin (tsplugin_pcrextract.cpp) -/

/-- The four time-stamp selection flags of `ts::PCRExtractPlugin`. -/
structure TimeStampFlags where
  get_pts : Bool
  get_dts : Bool
  get_pcr : Bool
  get_opcr : Bool
  deriving Repr, DecidableEq

/-- `ts::PCRExtractPlugin::start()` flag logic (tsplugin_pcrextract.cpp lines
193-207).  Inputs are the presence of the `--pcr`, `--opcr`, `--pts`, `--dts`
command-line options.  Note the source reads
`_get_pts = present("dts"); _get_dts = present("pts");`. -/
def pcrextractStart (optPcr optOpcr optPts optDts : Bool) : TimeStampFlags :=
  let get_pts := optDts
  let get_dts := optPts
  let get_pcr := optPcr
  let get_opcr := optOpcr
  if !get_pts && !get_dts && !get_pcr && !get_opcr then
    ⟨true, true, true, true⟩
  else
    ⟨get_pts, get_dts, get_pcr, get_opcr⟩

/-- Whether `ts::PCRExtractPlugin::processPacket` writes a PTS line for a
packet carrying a good PTS (lines 303-327): `_get_pts && (good_pts || !_good_pts_only)`. -/
def pcrextractEmitsPTS (f : TimeStampFlags) (has_pts good_pts good_only : Bool) : Bool :=
  has_pts && f.get_pts && (good_pts || !good_only)

/-- Whether `processPacket` writes a DTS line for a packet carrying a DTS
(lines 329-347). -/
def pcrextractEmitsDTS (f : TimeStampFlags) (has_dts : Bool) : Bool :=
  has_dts && f.get_dts

/-! ## `ts::DescriptorList` (tsDescriptorList.cpp) -/

/-- `DID_PRIV_DATA_SPECIF`: tag of the private_data_specifier_descriptor. -/
def DID_PRIV_DATA_SPECIF : Nat := 0x5F

/-- One element of `ts::DescriptorList::_list`: a descriptor together with its
associated private data specifier.  The C++ `DescriptorPtr` null pointer and
an invalid `Descriptor` are both modelled by `none`. -/
structure DLElem where
  desc : Descriptor
  pds : Nat
  deriving Repr, DecidableEq

/-- Condition under which `ts::DescriptorList::removeInvalidPrivateDescriptors`
removes an element (tsDescriptorList.cpp line 181):
`pds == 0 && !desc.isNull() && desc->isValid() && desc->tag() >= 0x80`. -/
def isInvalidPrivate (e : DLElem) : Bool :=
  e.pds == 0 && e.desc.isValid && decide (0x80 ≤ e.desc.tag)

/-- `ts::DescriptorList::removeInvalidPrivateDescriptors` (tsDescriptorList.cpp
lines 176-188).  The C++ loop erases `_list[n]` and then still executes the
`n++` of the `for` statement, so the element that slid into position `n` is
never examined: after a removal the traversal continues with the *second*
element after the removed one. -/
def removeInvalidPrivateDescriptors : List DLElem → List DLElem × Nat
  | [] => ([], 0)
  | x :: xs =>
    if isInvalidPrivate x then
      match xs with
      | [] => ([], 1)
      | y :: ys =>
        let r := removeInvalidPrivateDescriptors ys
        (y :: r.1, r.2 + 1)
    else
      let r := removeInvalidPrivateDescriptors xs
      (x :: r.1, r.2)

end TSDuck

namespace TSDuck

/-! ### Theorems: PCR jitter formula (C4) -/

/-- Claim C4: for nonzero bitrate `r` the computed jitter equals
`(r*(pcr2-pcr1) - (p2-p1)*188*8*27000000) / r` (C++ truncating division);
with bitrate 0 the jitter is 0. -/
theorem pcrverify_jitter_formula (pcr1 pkt1 pcr2 pkt2 r : Int) :
    (r ≠ 0 → jitter pcr1 pkt1 pcr2 pkt2 r =
      (r * (pcr2 - pcr1) - (pkt2 - pkt1) * 188 * 8 * 27000000).tdiv r) ∧
    jitter pcr1 pkt1 pcr2 pkt2 0 = 0 := by
  constructor
  · intro hr
    unfold jitter PKT_SIZE SYSTEM_CLOCK_FREQ
    rw [if_neg hr]
  · unfold jitter
    rw [if_pos rfl]

/-- Closed instance of the jitter formula: bitrate 1000000, a 27000-tick PCR
advance over one packet. -/
theorem pcrverify_jitter_formula_witness :
    jitter 0 0 27000 1 1000000 =
      ((1000000 : Int) * (27000 - 0) - (1 - 0) * 188 * 8 * 27000000).tdiv 1000000 :=
  (pcrverify_jitter_formula 0 0 27000 1 1000000).1 (by decide)

/-! ### Theorems: pcrextract option selection (C9) -/

/-- Claim C9 (code bug): with only `--pts` given, the plugin does *not* emit
PTS lines but does emit DTS lines, because `start()` assigns
`_get_pts = present("dts")` and `_get_dts = present("pts")` — contradicting
the plugin's own help text.  The default case (no option: all four kinds)
behaves as claimed. -/
theorem pcrextract_pts_dts_swapped :
    (pcrextractStart false false true false).get_pts = false ∧
    (pcrextractStart false false true false).get_dts = true ∧
    pcrextractEmitsPTS (pcrextractStart false false true false) true true false = false ∧
    pcrextractEmitsDTS (pcrextractStart false false true false) true = true ∧
    pcrextractStart false false false false = ⟨true, true, true, true⟩ := by
  decide

/-! ### Theorems: removal of invalid private descriptors (C7) -/

/-- Claim C7 (code bug): on a list of two consecutive valid private
descriptors (tag `0x80`, associated PDS 0), the function removes only the
first one — the erase-then-increment loop skips the element that slides into
the erased slot — so an invalid private descriptor remains even though the
function's own header comment promises to remove them all.  The returned
count (1) does equal the number of descriptors actually removed. -/
theorem removeInvalidPrivate_skips_consecutive :
    isInvalidPrivate ⟨Descriptor.fromBytes [0x80, 0x00], 0⟩ = true ∧
    removeInvalidPrivateDescriptors
        [⟨Descriptor.fromBytes [0x80, 0x00], 0⟩, ⟨Descriptor.fromBytes [0x80, 0x00], 0⟩] =
      ([⟨Descriptor.fromBytes [0x80, 0x00], 0⟩], 1) := by
  constructor
  · decide
  · decide

end TSDuck

namespace TSDuck

/-! ## `clear` plugin (tsplugin_clear.cpp)

`ts::ClearPlugin::processPacket` (lines 334-394).  A packet is abstracted to
the one bit the gating logic inspects: whether it is a clear packet on an
audio/video PID of the reference service (`_clear_pids[pid] && pkt.isClear()`).
The section demux feed and the bitrate-based default for `_drop_after` are not
modelled: the claim fixes `--drop-after-packets=1000`, so `_drop_after` is a
nonzero constant throughout. -/

/-- Gating state of `ts::ClearPlugin`. -/
structure ClearState where
  pass_packets : Bool
  last_clear_pkt : Nat
  current_pkt : Nat
  deriving Repr, DecidableEq

/-- Initial state set by the constructor and `start()`. -/
def clearInit : ClearState := ⟨false, 0, 0⟩

/-- One call of `ts::ClearPlugin::processPacket` with a fixed nonzero
`_drop_after`.  Returns the new state and whether the packet is forwarded
(`TSP_OK`) rather than dropped/nulled (`_drop_status`). -/
def clearStep (drop_after : Nat) (s : ClearState) (clearAV : Bool) : ClearState × Bool :=
  let s1 := if clearAV then
      { s with pass_packets := true, last_clear_pkt := s.current_pkt }
    else s
  let pass2 := if s1.pass_packets = true ∧ s1.current_pkt - s1.last_clear_pkt > drop_after
    then false else s1.pass_packets
  ({ pass_packets := pass2, last_clear_pkt := s1.last_clear_pkt,
     current_pkt := s1.current_pkt + 1 }, pass2)

/-- Process a whole input stream, returning the forwarding decision for each
packet in order. -/
def clearRun (drop_after : Nat) (s : ClearState) : List Bool → List Bool
  | [] => []
  | p :: ps =>
    (clearStep drop_after s p).2 :: clearRun drop_after (clearStep drop_after s p).1 ps

/-- State after processing a prefix of the stream. -/
def clearStateAfter (drop_after : Nat) (s : ClearState) (pkts : List Bool) : ClearState :=
  pkts.foldl (fun st p => (clearStep drop_after st p).1) s

end TSDuck

namespace TSDuck

/-! ### Theorems: clear-stream gating (C8) -/

theorem clearRun_getD (d : Nat) (pkts : List Bool) (s : ClearState) (i : Nat)
    (h : i < pkts.length) :
    (clearRun d s pkts).getD i false =
      (clearStep d (clearStateAfter d s (pkts.take i)) (pkts.getD i false)).2 := by
  induction pkts generalizing s i with
  | nil => simp at h
  | cons p ps ih =>
    cases i with
    | zero => simp [clearRun, clearStateAfter]
    | succ n =>
      have hn : n < ps.length := by simpa using h
      simp only [clearRun, List.getD_cons_succ, List.take_succ_cons, List.getD_cons_succ]
      rw [ih _ _ hn]
      rfl

theorem clearStateAfter_current (d : Nat) (s : ClearState) (pkts : List Bool) :
    (clearStateAfter d s pkts).current_pkt = s.current_pkt + pkts.length := by
  induction pkts generalizing s with
  | nil => simp [clearStateAfter]
  | cons p ps ih =>
    show (clearStateAfter d (clearStep d s p).1 ps).current_pkt = _
    rw [ih]
    cases p <;> simp [clearStep] <;> omega

theorem clearStateAfter_take_succ (d : Nat) (s : ClearState) (pkts : List Bool)
    (n : Nat) (h : n < pkts.length) :
    clearStateAfter d s (pkts.take (n + 1)) =
      (clearStep d (clearStateAfter d s (pkts.take n)) (pkts.getD n false)).1 := by
  induction pkts generalizing s n with
  | nil => simp at h
  | cons p ps ih =>
    cases n with
    | zero => simp [clearStateAfter]
    | succ m =>
      have hm : m < ps.length := by simpa using h
      simp only [List.take_succ_cons, List.getD_cons_succ]
      show clearStateAfter d (clearStep d s p).1 (ps.take (m + 1)) = _
      rw [ih _ _ hm]
      rfl

theorem clearStep_clear (d : Nat) (p : Bool) (last cur : Nat) :
    clearStep d ⟨p, last, cur⟩ true = (⟨true, cur, cur + 1⟩, true) := by
  simp [clearStep]

theorem clearStep_notclear (d : Nat) (p : Bool) (last cur : Nat) :
    clearStep d ⟨p, last, cur⟩ false =
      (⟨p && !(decide (cur - last > d)), last, cur + 1⟩,
       p && !(decide (cur - last > d))) := by
  cases p <;> by_cases h : cur - last > d <;> simp [clearStep, h]

/-- Invariant of the gate after the last clear packet: once the clear packet
at index `m` has been processed and no later clear packet has been seen
before index `j`, the state is `pass = (j ≤ m + d + 1)`, `last_clear = m`,
`current = j`. -/
theorem clear_state_after_last_clear (d m : Nat) (pkts : List Bool)
    (hm : pkts.getD m false = true) (hmlen : m < pkts.length)
    (j : Nat) (hj : m < j) (hjl : j ≤ pkts.length)
    (hnc : ∀ k, m < k → k < j → pkts.getD k false = false) :
    clearStateAfter d clearInit (pkts.take j) =
      ⟨decide (j ≤ m + d + 1), m, j⟩ := by
  induction j, hj using Nat.le_induction with
  | base =>
    rw [clearStateAfter_take_succ d clearInit pkts m hmlen, hm]
    have hc : (clearStateAfter d clearInit (pkts.take m)) =
        ⟨(clearStateAfter d clearInit (pkts.take m)).pass_packets,
         (clearStateAfter d clearInit (pkts.take m)).last_clear_pkt, m⟩ := by
      have := clearStateAfter_current d clearInit (pkts.take m)
      have hlt : (pkts.take m).length = m := by
        simp [List.length_take]
        omega
      cases hstate : clearStateAfter d clearInit (pkts.take m)
      rw [hstate] at this
      simp [clearInit, hlt] at this
      simpa using this
    rw [hc, clearStep_clear]
    have hdec : decide (m + 1 ≤ m + d + 1) = true := by
      simp only [decide_eq_true_eq]
      omega
    rw [hdec]
  | succ j hj ih =>
    have hjlen : j < pkts.length := by omega
    have hstate := ih (by omega) (fun k hk1 hk2 => hnc k hk1 (by omega))
    rw [clearStateAfter_take_succ d clearInit pkts j hjlen, hstate,
        hnc j hj (by omega), clearStep_notclear]
    have hbool : (decide (j ≤ m + d + 1) && !decide (j - m > d)) =
        decide (j + 1 ≤ m + d + 1) := by
      by_cases hA : j ≤ m + d + 1 <;> by_cases hB : j - m > d <;>
        simp [hA, hB] <;> omega
    rw [hbool]

/-- Claim C8: with `--drop-after-packets=1000` and the last clear packet on a
monitored audio/video PID at index 5000, every later packet is forwarded iff
it is itself a clear monitored packet (forwarding resumes there) or its index
is at most 6000; in particular every packet from index 6001 onward is dropped
(or replaced by a null packet with `--stuffing`) until a clear monitored
packet is next seen. -/
theorem clear_gate_drop_after_1000 (pkts : List Bool) (i : Nat)
    (h5000 : pkts.getD 5000 false = true)
    (hi : 5000 < i) (hlen : i < pkts.length)
    (hnc : ∀ k, 5000 < k → k < i → pkts.getD k false = false) :
    (clearRun 1000 clearInit pkts).getD i false =
      (pkts.getD i false || decide (i ≤ 6000)) := by
  rw [clearRun_getD 1000 pkts clearInit i hlen]
  rw [clear_state_after_last_clear 1000 5000 pkts h5000 (by omega) i hi (by omega) hnc]
  cases hp : pkts.getD i false with
  | true => rw [clearStep_clear]; simp
  | false =>
    rw [clearStep_notclear]
    simp only [Bool.false_or]
    by_cases hA : i ≤ 6001 <;> by_cases hB : i - 5000 > 1000 <;>
      simp [hA, hB] <;> omega

/-- Closed instance of the clear-gate theorem: a stream whose only clear
monitored packet is at index 5000, evaluated at index 5001 (still within the
1000-packet hold-off, so the packet is forwarded). -/
theorem clear_gate_drop_after_1000_witness :
    (clearRun 1000 clearInit (List.replicate 5000 false ++ [true, false])).getD 5001 false =
      ((List.replicate 5000 false ++ [true, false]).getD 5001 false || decide (5001 ≤ 6000)) :=
  clear_gate_drop_after_1000 (List.replicate 5000 false ++ [true, false]) 5001
    (by
      rw [List.getD_append_right _ _ _ _ (le_of_eq (List.length_replicate 5000 false))]
      rw [List.length_replicate]
      decide)
    (by omega)
    (by
      rw [List.length_append, List.length_replicate]
      decide)
    (fun k hk1 hk2 => by omega)

end TSDuck

namespace TSDuck

/-! ## `ts::DescriptorList` PDS scoping (tsDescriptorList.cpp)

The list elements were introduced above (`DLElem`).  Here we model the
operations that maintain the per-element PDS value: `add` (lines 65-86) and
`removeByIndex` (lines 195-210) with its helper `prepareRemovePDS`
(lines 125-155). -/

instance : Inhabited DLElem := ⟨⟨none, 0⟩⟩

/-- `GetUInt32` big-endian read of the first four bytes. -/
def getUInt32 (l : ByteBlock) : Nat :=
  l.getD 0 0 * 0x1000000 + l.getD 1 0 * 0x10000 + l.getD 2 0 * 0x100 + l.getD 3 0

/-- The PDS value a `private_data_specifier_descriptor` declares
(tsDescriptorList.cpp line 73): 0 when the payload is shorter than 4 bytes,
else the 32-bit big-endian payload value. -/
def declaredPDS (d : Descriptor) : Nat :=
  if d.payloadSize < 4 then 0 else getUInt32 d.payload

/-- `ts::DescriptorList::add(const DescriptorPtr&)` (lines 65-86). -/
def DescriptorList.add (list : List DLElem) (desc : Descriptor) : List DLElem :=
  let pds :=
    if desc.tag = DID_PRIV_DATA_SPECIF then declaredPDS desc
    else if list.isEmpty then 0
    else (list.getD (list.length - 1) default).pds
  list ++ [⟨desc, pds⟩]

/-- Forward scan of `prepareRemovePDS` (lines 133-146) over the elements after
the descriptor being removed: `none` when a private descriptor (tag ≥ 0x80)
appears before the next `private_data_specifier_descriptor` (removal
forbidden); otherwise the number of descriptors strictly between the removed
one and the boundary (next PDS descriptor or end of list). -/
def pdsScanAhead : List DLElem → Option Nat
  | [] => some 0
  | e :: rest =>
    if 0x80 ≤ e.desc.tag then none
    else if e.desc.tag = DID_PRIV_DATA_SPECIF then some 0
    else match pdsScanAhead rest with
      | none => none
      | some k => some (k + 1)

/-- `ts::DescriptorList::prepareRemovePDS` (lines 125-155) at index `i`:
`none` when removal is refused; otherwise the list with the PDS of the
elements between the removed descriptor and the boundary reset to the PDS
in force before the removed descriptor. -/
def prepareRemovePDS (list : List DLElem) (i : Nat) : Option (List DLElem) :=
  if i < list.length ∧ (list.getD i default).desc.tag = DID_PRIV_DATA_SPECIF then
    match pdsScanAhead (list.drop (i + 1)) with
    | none => none
    | some k =>
      some (list.take (i + 1) ++
            ((list.drop (i + 1)).take k).map
              (fun e => ⟨e.desc, if i = 0 then 0 else (list.getD (i - 1) default).pds⟩) ++
            list.drop (i + 1 + k))
  else none

/-- `ts::DescriptorList::removeByIndex` (lines 195-210): fails on an invalid
index or a non-removable `private_data_specifier_descriptor`, otherwise
erases the element (after `prepareRemovePDS` fixed up the following PDS
values when the removed descriptor is a PDS descriptor). -/
def removeByIndex (list : List DLElem) (i : Nat) : List DLElem × Bool :=
  if i < list.length then
    if (list.getD i default).desc.tag = DID_PRIV_DATA_SPECIF then
      match prepareRemovePDS list i with
      | none => (list, false)
      | some l => (l.eraseIdx i, true)
    else (list.eraseIdx i, true)
  else (list, false)

/-- An insert or remove operation on a descriptor list. -/
inductive DLOp where
  | add (d : Descriptor)
  | removeByIndex (i : Nat)
  deriving Repr

/-- Apply one operation. -/
def applyOp (l : List DLElem) : DLOp → List DLElem
  | .add d => DescriptorList.add l d
  | .removeByIndex i => (removeByIndex l i).1

/-- Apply a sequence of operations starting from the empty list. -/
def applyOps (ops : List DLOp) : List DLElem :=
  ops.foldl applyOp []

/-- Scope-threading step: a `private_data_specifier_descriptor` replaces the
active PDS with the value it declares; any other descriptor leaves it. -/
def pdsStep (acc : Nat) (e : DLElem) : Nat :=
  if e.desc.tag = DID_PRIV_DATA_SPECIF then declaredPDS e.desc else acc

/-- Active PDS after a prefix of the list (0 when no PDS descriptor occurs). -/
def lastDeclared (l : List DLElem) : Nat := l.foldl pdsStep 0

/-- The associated PDS value the *amended* invariant predicts for element `i`:
its own declared value for a `private_data_specifier_descriptor`, else the
value declared by the closest preceding one (0 if none precedes). -/
def specPDSAt (l : List DLElem) (i : Nat) : Nat :=
  if (l.getD i default).desc.tag = DID_PRIV_DATA_SPECIF then
    declaredPDS (l.getD i default).desc
  else lastDeclared (l.take i)

/-- The amended invariant, positionally. -/
def pdsInvariant (l : List DLElem) : Prop :=
  ∀ i, i < l.length → (l.getD i default).pds = specPDSAt l i

/-- The associated PDS value claim C3 *as stated* predicts for element `i`:
the value declared by the closest strictly preceding
`private_data_specifier_descriptor`, or 0 — for every descriptor, including
a `private_data_specifier_descriptor` itself. -/
def claimPDSAt (l : List DLElem) (i : Nat) : Nat := lastDeclared (l.take i)

/-- Claim C3 as stated. -/
def claimPdsInvariant (l : List DLElem) : Prop :=
  ∀ i, i < l.length → (l.getD i default).pds = claimPDSAt l i

instance (l : List DLElem) : Decidable (claimPdsInvariant l) := by
  unfold claimPdsInvariant; infer_instance

/-- Scope-correctness as a recursion: `cur` is the PDS in force on entry. -/
def wellScoped (cur : Nat) : List DLElem → Prop
  | [] => True
  | e :: rest =>
    (e.pds = if e.desc.tag = DID_PRIV_DATA_SPECIF then declaredPDS e.desc else cur) ∧
    wellScoped (pdsStep cur e) rest

end TSDuck

namespace TSDuck

/-! ### Theorems: descriptor-list PDS invariant (C3) -/

theorem wellScoped_append (cur : Nat) (a b : List DLElem) :
    wellScoped cur (a ++ b) ↔ wellScoped cur a ∧ wellScoped (a.foldl pdsStep cur) b := by
  induction a generalizing cur with
  | nil => simp [wellScoped]
  | cons e rest ih =>
    simp only [List.cons_append, wellScoped, List.foldl_cons, List.append_eq]
    rw [ih]
    tauto

theorem foldl_pdsStep_nonPDS (b : List DLElem) (v : Nat)
    (h : ∀ e ∈ b, e.desc.tag ≠ DID_PRIV_DATA_SPECIF) :
    b.foldl pdsStep v = v := by
  induction b generalizing v with
  | nil => rfl
  | cons e rest ih =>
    rw [List.foldl_cons]
    have he : e.desc.tag ≠ DID_PRIV_DATA_SPECIF := h e (by simp)
    rw [show pdsStep v e = v from if_neg he]
    exact ih v (fun x hx => h x (by simp [hx]))

theorem wellScoped_const_block (b : List DLElem) (v : Nat)
    (h : ∀ e ∈ b, e.desc.tag ≠ DID_PRIV_DATA_SPECIF) :
    wellScoped v (b.map (fun e => ⟨e.desc, v⟩)) := by
  induction b with
  | nil => trivial
  | cons e rest ih =>
    have he : e.desc.tag ≠ DID_PRIV_DATA_SPECIF := h e (by simp)
    refine ⟨by simp [he], ?_⟩
    rw [show pdsStep v (⟨e.desc, v⟩ : DLElem) = v from if_neg he]
    exact ih (fun x hx => h x (by simp [hx]))

theorem wellScoped_entry_irrelevant (v w : Nat) (s : List DLElem)
    (h : ∀ e ∈ s.take 1, e.desc.tag = DID_PRIV_DATA_SPECIF) :
    wellScoped v s ↔ wellScoped w s := by
  cases s with
  | nil => exact Iff.rfl
  | cons e rest =>
    have he : e.desc.tag = DID_PRIV_DATA_SPECIF := h e (by simp)
    show (e.pds = _ ∧ _) ↔ (e.pds = _ ∧ _)
    rw [if_pos he, if_pos he,
        show pdsStep v e = declaredPDS e.desc from if_pos he,
        show pdsStep w e = declaredPDS e.desc from if_pos he]

/-- Under the scope invariant, the PDS of the last element is the PDS in
force at the end of the list. -/
theorem wellScoped_last_pds (l : List DLElem) (cur : Nat) (h : wellScoped cur l)
    (hne : l ≠ []) :
    (l.getD (l.length - 1) default).pds = l.foldl pdsStep cur := by
  induction l generalizing cur with
  | nil => exact absurd rfl hne
  | cons e rest ih =>
    cases hrest : rest with
    | nil =>
      subst hrest
      show e.pds = pdsStep cur e
      exact h.1
    | cons f rest' =>
      subst hrest
      have hlen : (e :: f :: rest').length - 1 = (f :: rest').length - 1 + 1 := by
        simp
      rw [hlen, List.getD_cons_succ, List.foldl_cons]
      exact ih (pdsStep cur e) h.2 (by simp)

/-- The recursive scope invariant implies the positional one. -/
theorem wellScoped_imp_positional (l : List DLElem) (cur : Nat)
    (h : wellScoped cur l) :
    ∀ i, i < l.length → (l.getD i default).pds =
      (if (l.getD i default).desc.tag = DID_PRIV_DATA_SPECIF then
        declaredPDS (l.getD i default).desc
      else (l.take i).foldl pdsStep cur) := by
  induction l generalizing cur with
  | nil => intro i hi; simp at hi
  | cons e rest ih =>
    intro i hi
    cases i with
    | zero =>
      simpa using h.1
    | succ j =>
      have hj : j < rest.length := by simpa using hi
      have := ih (pdsStep cur e) h.2 j hj
      simpa using this

end TSDuck


namespace TSDuck

/-- What a successful forward scan guarantees: the skipped block contains no
`private_data_specifier_descriptor` (and the scan would have failed on any
private descriptor in it), and the element at the boundary, if any, is a
`private_data_specifier_descriptor`. -/
theorem pdsScanAhead_spec (l : List DLElem) (k : Nat) (h : pdsScanAhead l = some k) :
    k ≤ l.length ∧
    (∀ e ∈ l.take k, e.desc.tag ≠ DID_PRIV_DATA_SPECIF) ∧
    (∀ e ∈ (l.drop k).take 1, e.desc.tag = DID_PRIV_DATA_SPECIF) := by
  induction l generalizing k with
  | nil =>
    have hk : k = 0 := (Option.some.inj h).symm
    subst hk
    exact ⟨Nat.le_refl 0, by simp, by simp⟩
  | cons e rest ih =>
    unfold pdsScanAhead at h
    by_cases h80 : 0x80 ≤ e.desc.tag
    · rw [if_pos h80] at h; cases h
    rw [if_neg h80] at h
    by_cases hpds : e.desc.tag = DID_PRIV_DATA_SPECIF
    · rw [if_pos hpds] at h
      have hk : k = 0 := (Option.some.inj h).symm
      subst hk
      refine ⟨Nat.zero_le _, by simp, ?_⟩
      intro f hf
      simp at hf
      rw [hf]
      exact hpds
    · rw [if_neg hpds] at h
      cases hscan : pdsScanAhead rest with
      | none => rw [hscan] at h; cases h
      | some k' =>
        rw [hscan] at h
        have hk : k = k' + 1 := (Option.some.inj h).symm
        subst hk
        obtain ⟨ih1, ih2, ih3⟩ := ih k' hscan
        refine ⟨by simpa using ih1, ?_, ?_⟩
        · intro f hf
          rcases List.mem_cons.mp (by simpa using hf) with hfe | hfr
          · rw [hfe]; exact hpds
          · exact ih2 f hfr
        · simpa using ih3

/-- `add` preserves the scope invariant. -/
theorem wellScoped_add (l : List DLElem) (d : Descriptor) (h : wellScoped 0 l) :
    wellScoped 0 (DescriptorList.add l d) := by
  unfold DescriptorList.add
  rw [wellScoped_append]
  refine ⟨h, ?_, trivial⟩
  by_cases hd : d.tag = DID_PRIV_DATA_SPECIF
  · simp [hd]
  · simp only [if_neg hd]
    by_cases hl : l.isEmpty
    · have hnil : l = [] := by simpa using hl
      subst hnil
      simp
    · rw [if_neg hl]
      have hne : l ≠ [] := by simpa using hl
      exact wellScoped_last_pds l 0 h hne

end TSDuck

namespace TSDuck

/-- Erasing the element just after a prefix `a`. -/
theorem eraseIdx_append_cons {α : Type} (a : List α) (x : α) (r : List α)
    (i : Nat) (h : a.length = i) :
    (a ++ ([x] ++ r)).eraseIdx i = a ++ r := by
  rw [List.eraseIdx_eq_take_drop_succ]
  congr 1
  · rw [List.take_left' h]
  · rw [← List.append_assoc]
    rw [List.drop_left' (by rw [List.length_append, h]; simp)]

/-- `removeByIndex` preserves the scope invariant. -/
theorem wellScoped_removeByIndex (l : List DLElem) (i : Nat) (h : wellScoped 0 l) :
    wellScoped 0 (removeByIndex l i).1 := by
  unfold removeByIndex
  by_cases hi : i < l.length
  swap
  · rw [if_neg hi]; exact h
  rw [if_pos hi]
  have hAlen : (l.take i).length = i := by
    rw [List.length_take]; omega
  have hdropi : l.drop i = l.getD i default :: l.drop (i + 1) := by
    rw [List.drop_eq_getElem_cons hi]
    rw [List.getD_eq_getElem l default hi]
  have hsplit : l = l.take i ++ (l.getD i default :: l.drop (i + 1)) := by
    rw [← hdropi]
    exact (List.take_append_drop i l).symm
  by_cases htag : (l.getD i default).desc.tag = DID_PRIV_DATA_SPECIF
  swap
  · -- removed descriptor is not a PDS descriptor: plain erase
    rw [if_neg htag]
    show wellScoped 0 (l.eraseIdx i)
    rw [List.eraseIdx_eq_take_drop_succ]
    have hws : wellScoped 0 (l.take i ++ (l.getD i default :: l.drop (i + 1))) := by
      rw [← hsplit]; exact h
    rw [wellScoped_append] at hws ⊢
    refine ⟨hws.1, ?_⟩
    have h2 := hws.2.2
    rwa [show pdsStep ((l.take i).foldl pdsStep 0) (l.getD i default) =
        (l.take i).foldl pdsStep 0 from if_neg htag] at h2
  · rw [if_pos htag]
    unfold prepareRemovePDS
    rw [if_pos ⟨hi, htag⟩]
    cases hscan : pdsScanAhead (l.drop (i + 1)) with
    | none => exact h
    | some k =>
      simp only
      obtain ⟨hk, hBtags, hStag⟩ := pdsScanAhead_spec (l.drop (i + 1)) k hscan
      -- pieces
      have hBS : l.drop (i + 1) = (l.drop (i + 1)).take k ++ l.drop (i + 1 + k) := by
        have h1 : l.drop (i + 1 + k) = (l.drop (i + 1)).drop k := by
          rw [List.drop_drop]
        rw [h1]
        exact (List.take_append_drop k (l.drop (i + 1))).symm
      have htake1 : l.take (i + 1) = l.take i ++ [l.getD i default] := by
        conv_lhs => rw [hsplit]
        have : i + 1 = (l.take i).length + 1 := by omega
        rw [this, List.take_append]
        simp
      -- the PDS value in force before the removed descriptor
      have hprev : (if i = 0 then 0 else (l.getD (i - 1) default).pds) =
          (l.take i).foldl pdsStep 0 := by
        by_cases hi0 : i = 0
        · subst hi0; simp
        · rw [if_neg hi0]
          have hne : l.take i ≠ [] := by
            intro hc
            have := congrArg List.length hc
            rw [hAlen] at this
            simp at this
            omega
          have hlast := wellScoped_last_pds (l.take i) 0
            (by
              have hws := h
              conv at hws => rw [hsplit]
              exact (wellScoped_append 0 _ _).mp hws |>.1)
            hne
          rw [hAlen] at hlast
          rw [← hlast]
          congr 1
          rw [List.getD_eq_getElem?_getD, List.getD_eq_getElem?_getD,
              List.getElem?_take_of_lt (by omega)]
      -- decompose the invariant of l
      have hws := h
      conv at hws => rw [hsplit]
      rw [wellScoped_append] at hws
      obtain ⟨hwsA, hwsxBS⟩ := hws
      obtain ⟨hwsx, hwsBS⟩ := hwsxBS
      rw [show pdsStep ((l.take i).foldl pdsStep 0) (l.getD i default) =
          declaredPDS (l.getD i default).desc from if_pos htag] at hwsBS
      conv at hwsBS => rw [hBS]
      rw [wellScoped_append] at hwsBS
      obtain ⟨hwsB, hwsS⟩ := hwsBS
      rw [foldl_pdsStep_nonPDS _ _ hBtags] at hwsS
      -- the erase result: drop the PDS descriptor, keep prefix, block, suffix
      rw [htake1, List.append_assoc, List.append_assoc]
      rw [eraseIdx_append_cons (l.take i) (l.getD i default)
          ((((l.drop (i + 1)).take k).map (fun e =>
            (⟨e.desc, if i = 0 then 0 else (l.getD (i - 1) default).pds⟩ : DLElem))) ++
           l.drop (i + 1 + k)) i hAlen]
      -- prove the invariant of the result
      rw [wellScoped_append]
      refine ⟨hwsA, ?_⟩
      rw [wellScoped_append]
      have hmap_tags : ∀ e ∈ ((l.drop (i + 1)).take k).map (fun e =>
          (⟨e.desc, if i = 0 then 0 else (l.getD (i - 1) default).pds⟩ : DLElem)),
          e.desc.tag ≠ DID_PRIV_DATA_SPECIF := by
        intro e he
        obtain ⟨f, hf, rfl⟩ := List.mem_map.mp he
        exact hBtags f hf
      constructor
      · rw [hprev]
        exact wellScoped_const_block _ _ hBtags
      · rw [foldl_pdsStep_nonPDS _ _ hmap_tags]
        rw [wellScoped_entry_irrelevant _ (declaredPDS (l.getD i default).desc) _
          (by
            intro e he
            apply hStag
            rwa [← List.drop_drop] at he)]
        exact hwsS

end TSDuck

namespace TSDuck

theorem wellScoped_foldl_ops (ops : List DLOp) :
    ∀ l, wellScoped 0 l → wellScoped 0 (ops.foldl applyOp l) := by
  induction ops with
  | nil => intro l h; exact h
  | cons op rest ih =>
    intro l h
    rw [List.foldl_cons]
    apply ih
    cases op with
    | add d => exact wellScoped_add l d h
    | removeByIndex i => exact wellScoped_removeByIndex l i h

/-- Claim C3, amended: after any sequence of `add` and `removeByIndex`
operations, the PDS associated with each descriptor equals the PDS declared
by the closest `private_data_specifier_descriptor` at or before its position
(a `private_data_specifier_descriptor` is associated with the value it itself
declares), or 0 when no such descriptor is at or before it. -/
theorem descriptorList_pds_invariant (ops : List DLOp) :
    pdsInvariant (applyOps ops) := by
  have hws : wellScoped 0 (applyOps ops) := wellScoped_foldl_ops ops [] trivial
  intro i hi
  have hpos := wellScoped_imp_positional (applyOps ops) 0 hws i hi
  rw [hpos]
  rfl

/-- Closed instance of the amended PDS invariant on a two-operation history:
insert a `private_data_specifier_descriptor` (PDS 5), then a private
descriptor. -/
theorem descriptorList_pds_invariant_witness :
    pdsInvariant (applyOps
      [DLOp.add (Descriptor.fromBytes [0x5F, 0x04, 0x00, 0x00, 0x00, 0x05]),
       DLOp.add (Descriptor.fromBytes [0x80, 0x00])]) :=
  descriptorList_pds_invariant
    [DLOp.add (Descriptor.fromBytes [0x5F, 0x04, 0x00, 0x00, 0x00, 0x05]),
     DLOp.add (Descriptor.fromBytes [0x80, 0x00])]

/-- Counterexample to claim C3 as stated: a freshly inserted
`private_data_specifier_descriptor` declaring PDS 5 is associated with the
value 5, not with the value of the closest *strictly preceding*
`private_data_specifier_descriptor` (there is none, so the claim predicts 0). -/
theorem descriptorList_claim_counterexample :
    ¬ claimPdsInvariant (applyOps
      [DLOp.add (Descriptor.fromBytes [0x5F, 0x04, 0x00, 0x00, 0x00, 0x05])]) := by
  decide

end TSDuck

namespace TSDuck

/-! ## `ts::EIT` serialization (tsEIT.cpp)

Events are serialized into long sections of at most
`MAX_PSI_LONG_SECTION_PAYLOAD_SIZE` payload bytes, the first 6 of which are
fixed (`ts_id`, `onetw_id`, `segment_last`, `last_table_id`).  We model a
section under construction as the list of event fragments written after those
6 bytes, each fragment carrying its bytes plus the bookkeeping values
(`start_index` before and after `lengthSerialize`) needed to state the
packing properties. -/

/-- `MAX_PSI_LONG_SECTION_PAYLOAD_SIZE`.  Modelled from the spec: tsMPEG.h is
not among the analysed sources; per the spec a long section has at most 1024
bytes, 3 bytes of short header, 5 bytes of long header and a 4-byte CRC,
leaving 1012 payload bytes. -/
def MAX_PSI_LONG_SECTION_PAYLOAD_SIZE : Nat := 1012

/-- One EIT event (`ts::EIT::Event` plus its key in the `events` map).
The descriptor list is kept in binary form: each entry is the full
tag-length-value byte block of one descriptor. -/
structure EITEvent where
  event_id : Nat
  start_time : Nat
  duration : Nat
  running_status : Nat
  CA_controlled : Bool
  descs : List ByteBlock
  deriving Repr, DecidableEq

/-- `ts::DescriptorList::binarySize`: total size of the binary descriptors. -/
def descsBinarySize (descs : List ByteBlock) : Nat := (descs.map List.length).sum

/-- Modelled from the spec: `EncodeMJD` (tsMJD.h, not among the analysed
sources) writes the start time as a 5-byte field; we model it as the five
big-endian base-256 digits of the abstract start time. -/
def encodeMJD (t : Nat) : ByteBlock :=
  [t / 2 ^ 32 % 256, t / 2 ^ 24 % 256, t / 2 ^ 16 % 256, t / 2 ^ 8 % 256, t % 256]

/-- Modelled from the spec: `EncodeBCD` (tsBCD.h, not among the analysed
sources) packs a two-digit decimal value into one byte, high digit in the
high nibble; the result is stored into a `uint8_t`. -/
def encodeBCD (x : Nat) : Nat := (x / 10 * 16 + x % 10) % 256

/-- Modelled from the spec: `DecodeBCD` reads the two decimal digits back. -/
def decodeBCD (b : Nat) : Nat := b / 16 * 10 + b % 16

/-- The 10 fixed bytes written for an event before its descriptor loop
(tsEIT.cpp lines 280-285): event id (16 bits big-endian), 5-byte MJD start
time, 3 BCD bytes of duration. -/
def eitEventHeader (ev : EITEvent) : ByteBlock :=
  [ev.event_id / 256 % 256, ev.event_id % 256] ++ encodeMJD ev.start_time ++
  [encodeBCD (ev.duration / 3600), encodeBCD (ev.duration / 60 % 60),
   encodeBCD (ev.duration % 60)]

/-- The copy loop of `ts::DescriptorList::serialize` (tsDescriptorList.cpp
lines 257-269): copy descriptors while the next one fits in the remaining
size.  Returns the bytes written and the number of descriptors written. -/
def serializeLoop : List ByteBlock → Nat → ByteBlock × Nat
  | [], _ => ([], 0)
  | d :: rest, size =>
    if d.length ≤ size then
      let r := serializeLoop rest (size - d.length)
      (d ++ r.1, r.2 + 1)
    else ([], 0)

/-- `ts::DescriptorList::serialize(addr, size, start)`: serialize descriptors
starting at index `start`; returns the bytes written and the index of the
first descriptor not written. -/
def descrListSerialize (descs : List ByteBlock) (size start : Nat) : ByteBlock × Nat :=
  let r := serializeLoop (descs.drop start) size
  (r.1, start + r.2)

/-- `ts::DescriptorList::lengthSerialize` (tsDescriptorList.cpp lines
279-296): reserve 2 bytes, serialize with `size - 2`, then store
`length | 0xF000` big-endian in the reserved bytes.  Byte extraction
`(v >> 8) & 0xFF` / `v & 0xFF` is written `v / 256 % 256` / `v % 256`. -/
def descrListLengthSerialize (descs : List ByteBlock) (size start : Nat) :
    ByteBlock × Nat :=
  let r := descrListSerialize descs (size - 2) start
  ((r.1.length ||| 0xF000) / 256 % 256 :: (r.1.length ||| 0xF000) % 256 :: r.1, r.2)

/-- The reserved-bits fix-up of tsEIT.cpp line 293:
`flags[0] = (flags[0] & 0x0F) | (running_status << 5) | (CA ? 0x10 : 0x00)`,
stored into a `uint8_t`. -/
def rsCAByte (b rs : Nat) (ca : Bool) : Nat :=
  ((b &&& 0x0F) ||| (rs <<< 5) ||| (if ca then 0x10 else 0)) % 256

/-- One event fragment written into a section: the wire bytes plus the
bookkeeping values needed to state the packing properties. -/
structure EITFrag where
  event_id : Nat
  running_status : Nat
  CA_controlled : Bool
  startIdx : Nat
  endIdx : Nat
  descCount : Nat
  bytes : ByteBlock
  deriving Repr, DecidableEq

/-- One pass of the body of the inner `while` of `ts::EIT::serialize` (lines
279-293): 10 header bytes, then `lengthSerialize` on the remaining space
(`remain - 10`, of which 2 bytes are the fixed-up length field). -/
def eitFragment (ev : EITEvent) (remain start : Nat) : EITFrag :=
  let r := descrListLengthSerialize ev.descs (remain - 10) start
  let body := match r.1 with
    | b :: rest => rsCAByte b ev.running_status ev.CA_controlled :: rest
    | [] => []
  ⟨ev.event_id, ev.running_status, ev.CA_controlled, start, r.2, ev.descs.length,
   eitEventHeader ev ++ body⟩

/-- Serialization state: closed sections (as fragment lists), the fragments of
the section under construction, and the remaining space (the C++ `remain`). -/
structure EITSerState where
  sections : List (List EITFrag)
  cur : List EITFrag
  remain : Nat
  deriving Repr, DecidableEq

/-- `ts::EIT::addSection` (lines 315-332): close the current section and
restart after the 6 constant payload bytes. -/
def eitAddSection (s : EITSerState) : EITSerState :=
  ⟨s.sections ++ [s.cur], [], MAX_PSI_LONG_SECTION_PAYLOAD_SIZE - 6⟩

/-- The inner `while (starting || start_index < event.descs.count())` loop of
`ts::EIT::serialize` (lines 266-300).  The C++ loop terminates only when every
iteration makes progress; the fuel (descriptor count + 1) is enough whenever
each iteration writes at least one descriptor, which holds in every run the
verified properties quantify over. -/
def eitEventLoop : Nat → EITEvent → EITSerState → Bool → Nat → EITSerState
  | 0, _, s, _, _ => s
  | fuel + 1, ev, s, starting, start_index =>
    if starting ∨ start_index < ev.descs.length then
      let s1 := if starting ∧ 12 + descsBinarySize ev.descs > s.remain then
          eitAddSection s else s
      let frag := eitFragment ev s1.remain start_index
      let s2 : EITSerState :=
        ⟨s1.sections, s1.cur ++ [frag], s1.remain - frag.bytes.length⟩
      let s3 := if frag.endIdx < ev.descs.length then eitAddSection s2 else s2
      eitEventLoop fuel ev s3 false frag.endIdx
    else s

/-- One iteration of the event loop of `ts::EIT::serialize` (lines 249-301):
open a new section when even the 12 fixed bytes do not fit, then run the
inner loop. -/
def eitProcessEvent (s : EITSerState) (ev : EITEvent) : EITSerState :=
  let s1 := if s.remain < 12 then eitAddSection s else s
  eitEventLoop (ev.descs.length + 1) ev s1 true 0

/-- `ts::EIT::serialize` (lines 224-307): process all events, then flush the
last partial section (also when no section was produced at all). -/
def eitSerialize (events : List EITEvent) : List (List EITFrag) :=
  let s := events.foldl eitProcessEvent
    ⟨[], [], MAX_PSI_LONG_SECTION_PAYLOAD_SIZE - 6⟩
  if s.cur ≠ [] ∨ s.sections.length = 0 then (eitAddSection s).sections
  else s.sections

/-- The full payload of one serialized section: the 6 constant bytes
(tsEIT.cpp lines 241-246) followed by the event fragments. -/
def eitSectionPayload (ts_id onetw_id segment_last last_table_id : Nat)
    (sec : List EITFrag) : ByteBlock :=
  [ts_id / 256 % 256, ts_id % 256, onetw_id / 256 % 256, onetw_id % 256,
   segment_last % 256, last_table_id % 256] ++ (sec.map EITFrag.bytes).flatten

/-- One event as read back by `ts::EIT::deserialize` (lines 194-213).
`DecodeMJD` is not among the analysed sources, so the raw 5 MJD bytes are
kept. -/
structure EITParsedEvent where
  event_id : Nat
  mjdBytes : ByteBlock
  duration : Nat
  running_status : Nat
  CA_controlled : Nat
  descBytes : ByteBlock
  deriving Repr, DecidableEq

/-- The `while (remain >= 12)` event loop of `ts::EIT::deserialize` (lines
194-213): read the 12-byte event header, clamp the descriptor loop length to
the remaining bytes, and continue after the loop. -/
def eitParseEvents (bs : ByteBlock) : List EITParsedEvent :=
  if h : 12 ≤ bs.length then
    let il := min ((bs.getD 10 0 * 256 + bs.getD 11 0) &&& 0x0FFF) (bs.length - 12)
    ⟨bs.getD 0 0 * 256 + bs.getD 1 0,
     (bs.drop 2).take 5,
     decodeBCD (bs.getD 7 0) * 3600 + decodeBCD (bs.getD 8 0) * 60 +
       decodeBCD (bs.getD 9 0),
     (bs.getD 10 0 >>> 5) &&& 0x07,
     (bs.getD 10 0 >>> 4) &&& 0x01,
     (bs.drop 12).take il⟩ :: eitParseEvents (bs.drop (12 + il))
  else []
  termination_by bs.length
  decreasing_by
    rw [List.length_drop]
    omega

/-- The per-section part of `ts::EIT::deserialize` (lines 178-213): the first
6 payload bytes are the fixed fields, the rest is the event loop; a payload
shorter than 6 bytes aborts with no event. -/
def eitDeserializeSection (payload : ByteBlock) : List EITParsedEvent :=
  if payload.length < 6 then [] else eitParseEvents (payload.drop 6)

end TSDuck

namespace TSDuck

/-! ### Theorems: EIT event packing (C2) -/

/-- An event whose complete description (12 fixed bytes plus the whole
descriptor loop) fits in the event area of one section. -/
def evFits (ev : EITEvent) : Prop :=
  12 + descsBinarySize ev.descs ≤ MAX_PSI_LONG_SECTION_PAYLOAD_SIZE - 6

instance (ev : EITEvent) : Decidable (evFits ev) := by
  unfold evFits; infer_instance

theorem serializeLoop_all (descs : List ByteBlock) (size : Nat)
    (h : descsBinarySize descs ≤ size) :
    serializeLoop descs size = (descs.flatten, descs.length) := by
  induction descs generalizing size with
  | nil => rfl
  | cons d rest ih =>
    have hsum : d.length + descsBinarySize rest ≤ size := by
      simpa [descsBinarySize] using h
    unfold serializeLoop
    rw [if_pos (by omega)]
    rw [ih (size - d.length) (by omega)]
    simp

/-- The canonical complete fragment of an event. -/
def fragOf (ev : EITEvent) : EITFrag :=
  ⟨ev.event_id, ev.running_status, ev.CA_controlled, 0, ev.descs.length,
   ev.descs.length,
   eitEventHeader ev ++
     rsCAByte ((descsBinarySize ev.descs ||| 0xF000) / 256 % 256)
       ev.running_status ev.CA_controlled ::
     (descsBinarySize ev.descs ||| 0xF000) % 256 :: ev.descs.flatten⟩

theorem flatten_length_binarySize (descs : List ByteBlock) :
    descs.flatten.length = descsBinarySize descs := by
  rw [List.length_flatten]; rfl

/-- When the whole descriptor loop fits, one loop body writes the canonical
complete fragment. -/
theorem eitFragment_full (ev : EITEvent) (remain : Nat)
    (h : 12 + descsBinarySize ev.descs ≤ remain) :
    eitFragment ev remain 0 = fragOf ev := by
  unfold eitFragment descrListLengthSerialize descrListSerialize
  rw [List.drop_zero, serializeLoop_all ev.descs (remain - 10 - 2) (by omega)]
  simp only [fragOf, flatten_length_binarySize, Nat.zero_add]

theorem fragOf_bytes_length (ev : EITEvent) :
    (fragOf ev).bytes.length = 12 + descsBinarySize ev.descs := by
  show (eitEventHeader ev ++ _ :: _ :: ev.descs.flatten).length = _
  rw [List.length_append]
  have hh : (eitEventHeader ev).length = 10 := rfl
  rw [hh]
  simp only [List.length_cons]
  rw [flatten_length_binarySize]
  omega

/-- All fragments held by a serialization state, in order. -/
def stateFrags (s : EITSerState) : List EITFrag := s.sections.flatten ++ s.cur

theorem stateFrags_addSection (s : EITSerState) :
    stateFrags (eitAddSection s) = stateFrags s := by
  unfold stateFrags eitAddSection
  rw [List.flatten_concat]
  simp

/-- Under the fit hypothesis, the inner serialization loop writes exactly one
complete fragment. -/
theorem eitEventLoop_full (fuel : Nat) (ev : EITEvent) (s : EITSerState)
    (hfit : evFits ev) :
    stateFrags (eitEventLoop (fuel + 1) ev s true 0) =
      stateFrags s ++ [fragOf ev] := by
  unfold eitEventLoop
  rw [if_pos (Or.inl rfl)]
  simp only [true_and]
  set s1 := if 12 + descsBinarySize ev.descs > s.remain then eitAddSection s else s
    with hs1
  have hs1rem : 12 + descsBinarySize ev.descs ≤ s1.remain := by
    rw [hs1]
    by_cases hc : 12 + descsBinarySize ev.descs > s.remain
    · rw [if_pos hc]
      exact hfit
    · rw [if_neg hc]
      omega
  have hs1frags : stateFrags s1 = stateFrags s := by
    rw [hs1]
    by_cases hc : 12 + descsBinarySize ev.descs > s.remain
    · rw [if_pos hc, stateFrags_addSection]
    · rw [if_neg hc]
  rw [eitFragment_full ev s1.remain hs1rem]
  have hend : ¬ (fragOf ev).endIdx < ev.descs.length := by
    show ¬ ev.descs.length < ev.descs.length
    omega
  rw [if_neg hend]
  have hstop : ∀ f : Nat, eitEventLoop f ev
      ⟨s1.sections, s1.cur ++ [fragOf ev], s1.remain - (fragOf ev).bytes.length⟩
      false (fragOf ev).endIdx =
      ⟨s1.sections, s1.cur ++ [fragOf ev], s1.remain - (fragOf ev).bytes.length⟩ := by
    intro f
    cases f with
    | zero => rfl
    | succ f' =>
      unfold eitEventLoop
      rw [if_neg (by
        simp only [Bool.false_eq_true, false_or]
        exact hend)]
  rw [hstop fuel]
  show (s1.sections.flatten ++ (s1.cur ++ [fragOf ev])) = _
  rw [← List.append_assoc]
  rw [show s1.sections.flatten ++ s1.cur = stateFrags s1 from rfl, hs1frags]

/-- Processing one fitting event appends exactly its complete fragment. -/
theorem eitProcessEvent_frags (s : EITSerState) (ev : EITEvent)
    (hfit : evFits ev) :
    stateFrags (eitProcessEvent s ev) = stateFrags s ++ [fragOf ev] := by
  unfold eitProcessEvent
  by_cases hc : s.remain < 12
  · rw [if_pos hc, eitEventLoop_full _ _ _ hfit, stateFrags_addSection]
  · rw [if_neg hc, eitEventLoop_full _ _ _ hfit]

theorem eitFoldl_frags (evs : List EITEvent) :
    ∀ s, (∀ ev ∈ evs, evFits ev) →
      stateFrags (evs.foldl eitProcessEvent s) = stateFrags s ++ evs.map fragOf := by
  induction evs with
  | nil => intro s _; simp
  | cons ev rest ih =>
    intro s hall
    rw [List.foldl_cons, ih _ (fun e he => hall e (by simp [he])),
        eitProcessEvent_frags s ev (hall ev (by simp))]
    simp

/-- Under the fit hypothesis, the serialized sections contain, in order,
exactly one complete fragment per event. -/
theorem eitSerialize_frags (evs : List EITEvent) (hall : ∀ ev ∈ evs, evFits ev) :
    (eitSerialize evs).flatten = evs.map fragOf := by
  unfold eitSerialize
  simp only
  have hfold := eitFoldl_frags evs ⟨[], [], MAX_PSI_LONG_SECTION_PAYLOAD_SIZE - 6⟩ hall
  set s := evs.foldl eitProcessEvent ⟨[], [], MAX_PSI_LONG_SECTION_PAYLOAD_SIZE - 6⟩
    with hs
  have hfrags : stateFrags s = evs.map fragOf := by
    rw [hfold]
    rfl
  by_cases hc : s.cur ≠ [] ∨ s.sections.length = 0
  · rw [if_pos hc]
    show (eitAddSection s).sections.flatten = _
    unfold eitAddSection
    rw [List.flatten_concat]
    exact hfrags
  · rw [if_neg hc]
    push_neg at hc
    have hcur : s.cur = [] := hc.1
    have := hfrags
    rw [stateFrags, hcur, List.append_nil] at this
    exact this

/-- Claim C2: for every EIT whose events each fit in one section (12-byte
event header plus descriptor loop at most the maximum long-section payload
minus the 6 fixed bytes), every fragment in every serialized section is a
complete event description: it starts at descriptor index 0 and covers the
whole descriptor loop, so no event description crosses a section boundary. -/
theorem eit_no_event_crosses_sections (evs : List EITEvent)
    (hall : ∀ ev ∈ evs, evFits ev) :
    ∀ sec ∈ eitSerialize evs, ∀ f ∈ sec,
      f.startIdx = 0 ∧ f.endIdx = f.descCount := by
  intro sec hsec f hf
  have hmem : f ∈ (eitSerialize evs).flatten :=
    List.mem_flatten_of_mem hsec hf
  rw [eitSerialize_frags evs hall] at hmem
  obtain ⟨ev, _, rfl⟩ := List.mem_map.mp hmem
  exact ⟨rfl, rfl⟩

/-- Closed instance of the EIT packing theorem: in the serialization of a
two-event EIT, the fragment of the first event is complete. -/
theorem eit_no_event_crosses_sections_witness :
    (fragOf ⟨1, 0, 0, 4, false, [[0x6A, 0x01, 0xC0]]⟩).startIdx = 0 ∧
    (fragOf ⟨1, 0, 0, 4, false, [[0x6A, 0x01, 0xC0]]⟩).endIdx =
      (fragOf ⟨1, 0, 0, 4, false, [[0x6A, 0x01, 0xC0]]⟩).descCount :=
  eit_no_event_crosses_sections
    [⟨1, 0, 0, 4, false, [[0x6A, 0x01, 0xC0]]⟩, ⟨2, 0, 0, 1, true, []⟩]
    (by decide)
    [fragOf ⟨1, 0, 0, 4, false, [[0x6A, 0x01, 0xC0]]⟩, fragOf ⟨2, 0, 0, 1, true, []⟩]
    (by decide)
    (fragOf ⟨1, 0, 0, 4, false, [[0x6A, 0x01, 0xC0]]⟩)
    (by decide)

end TSDuck

namespace TSDuck

/-! ### Theorems: EIT reserved bits carry running_status / CA_controlled (C6) -/

theorem lor_F000 (len : Nat) (h : len < 4096) : len ||| 0xF000 = 61440 + len := by
  have hor := Nat.mul_add_lt_is_or (b := len) (i := 12) (by norm_num; omega) 15
  norm_num at hor
  rw [Nat.lor_comm]
  omega

theorem rsca_or_decompose (hi rs c : Nat) (hhi : hi < 16) (hrs : rs < 8)
    (hc : c = 0 ∨ c = 16) :
    hi ||| rs <<< 5 ||| c = rs * 32 + c + hi := by
  rcases hc with rfl | rfl <;> interval_cases hi <;> interval_cases rs <;> decide

theorem rsCAByte_val (pre rs : Nat) (ca : Bool) (hrs : rs < 8) :
    rsCAByte pre rs ca = rs * 32 + (if ca then 16 else 0) + pre % 16 := by
  unfold rsCAByte
  have h15 : pre &&& 0x0F = pre % 16 := by
    have h := Nat.and_pow_two_sub_one_eq_mod pre 4
    norm_num at h
    exact h
  rw [h15]
  have hm : pre % 16 < 16 := Nat.mod_lt _ (by norm_num)
  have hdec : pre % 16 ||| rs <<< 5 ||| (if ca then 0x10 else 0) =
      rs * 32 + (if ca then 16 else 0) + pre % 16 := by
    cases ca with
    | false =>
      simpa using rsca_or_decompose (pre % 16) rs 0 hm hrs (Or.inl rfl)
    | true =>
      simpa using rsca_or_decompose (pre % 16) rs 16 hm hrs (Or.inr rfl)
  rw [hdec]
  apply Nat.mod_eq_of_lt
  have : (if ca then 16 else 0) ≤ 16 := by cases ca <;> simp
  omega

/-- What `ts::EIT::deserialize` recovers from one complete fragment: the
event id, the raw MJD and BCD header bytes, and — read back from the four
reserved bits of the descriptor-loop length — the running status and the CA
mode, plus the descriptor-loop bytes. -/
def fragParsed (f : EITFrag) : EITParsedEvent :=
  ⟨f.event_id, (f.bytes.drop 2).take 5,
   decodeBCD (f.bytes.getD 7 0) * 3600 + decodeBCD (f.bytes.getD 8 0) * 60 +
     decodeBCD (f.bytes.getD 9 0),
   f.running_status, if f.CA_controlled then 1 else 0,
   f.bytes.drop 12⟩

end TSDuck

namespace TSDuck

/-- Parsing one complete fragment followed by anything: the 12-byte header is
read back, the descriptor-loop length (clamped by the remaining size) equals
the loop actually written, and parsing continues exactly at the next
fragment. -/
theorem eitParseEvents_frag_cons (ev : EITEvent) (tail : ByteBlock)
    (hfit : evFits ev) (hrs : ev.running_status < 8) (hid : ev.event_id < 65536) :
    eitParseEvents ((fragOf ev).bytes ++ tail) =
      fragParsed (fragOf ev) :: eitParseEvents tail := by
  have hlen994 : descsBinarySize ev.descs ≤ 994 := by
    have h := hfit
    unfold evFits MAX_PSI_LONG_SECTION_PAYLOAD_SIZE at h
    omega
  set len := descsBinarySize ev.descs with hlendef
  have hflatlen : ev.descs.flatten.length = len := flatten_length_binarySize _
  have hpre : (len ||| 0xF000) / 256 % 256 = 240 + len / 256 := by
    rw [lor_F000 len (by omega)]
    omega
  have hb11v : (len ||| 0xF000) % 256 = len % 256 := by
    rw [lor_F000 len (by omega)]
    omega
  have hb10v : rsCAByte ((len ||| 0xF000) / 256 % 256) ev.running_status ev.CA_controlled =
      ev.running_status * 32 + (if ev.CA_controlled then 16 else 0) + len / 256 := by
    rw [rsCAByte_val _ _ _ hrs, hpre]
    have hq : len / 256 < 16 := by omega
    omega
  have hchain : (fragOf ev).bytes ++ tail =
      ev.event_id / 256 % 256 :: ev.event_id % 256 ::
      ev.start_time / 2 ^ 32 % 256 :: ev.start_time / 2 ^ 24 % 256 ::
      ev.start_time / 2 ^ 16 % 256 :: ev.start_time / 2 ^ 8 % 256 ::
      ev.start_time % 256 ::
      encodeBCD (ev.duration / 3600) :: encodeBCD (ev.duration / 60 % 60) ::
      encodeBCD (ev.duration % 60) ::
      rsCAByte ((len ||| 0xF000) / 256 % 256) ev.running_status ev.CA_controlled ::
      (len ||| 0xF000) % 256 :: (ev.descs.flatten ++ tail) := rfl
  rw [hchain, eitParseEvents]
  rw [dif_pos (by simp)]
  simp only [List.getD_cons_zero, List.getD_cons_succ, List.drop_succ_cons,
             List.drop_zero, List.take_succ_cons, List.take_zero, List.length_cons]
  have h4095 : ∀ x : Nat, x &&& 4095 = x % 4096 := fun x => by
    have h := Nat.and_pow_two_sub_one_eq_mod x 12
    norm_num at h
    exact h
  have hil : rsCAByte ((len ||| 61440) / 256 % 256) ev.running_status ev.CA_controlled * 256 +
      (len ||| 61440) % 256 &&& 4095 = len := by
    rw [hb10v, hb11v, h4095]
    cases ev.CA_controlled <;> simp <;> omega
  rw [hil]
  have hminlen : (ev.descs.flatten ++ tail).length + 1 + 1 + 1 + 1 + 1 + 1 + 1 + 1 + 1 + 1 + 1 + 1 - 12
      = len + tail.length := by
    rw [List.length_append, hflatlen]
    omega
  rw [hminlen]
  have hmin : len ⊓ (len + tail.length) = len := min_eq_left (by omega)
  rw [hmin]
  rw [List.take_left' hflatlen]
  rw [← List.drop_drop]
  simp only [List.drop_succ_cons, List.drop_zero]
  rw [List.drop_left' hflatlen]
  have hfp : fragParsed (fragOf ev) =
      ⟨ev.event_id,
       [ev.start_time / 2 ^ 32 % 256, ev.start_time / 2 ^ 24 % 256,
        ev.start_time / 2 ^ 16 % 256, ev.start_time / 2 ^ 8 % 256,
        ev.start_time % 256],
       decodeBCD (encodeBCD (ev.duration / 3600)) * 3600 +
         decodeBCD (encodeBCD (ev.duration / 60 % 60)) * 60 +
         decodeBCD (encodeBCD (ev.duration % 60)),
       ev.running_status, if ev.CA_controlled then 1 else 0,
       ev.descs.flatten⟩ := rfl
  rw [hfp]
  simp only [List.cons.injEq, EITParsedEvent.mk.injEq, and_true, true_and]
  refine ⟨?_, ?_, ?_⟩
  · omega
  · have hshift : ∀ x : Nat, x >>> 5 &&& 7 = x / 32 % 8 := fun x => by
      rw [Nat.shiftRight_eq_div_pow]
      have h := Nat.and_pow_two_sub_one_eq_mod (x / 2 ^ 5) 3
      norm_num at h ⊢
      try exact h
    rw [hb10v, hshift]
    cases ev.CA_controlled <;> simp <;> omega
  · have hshift : ∀ x : Nat, x >>> 4 &&& 1 = x / 16 % 2 := fun x => by
      rw [Nat.shiftRight_eq_div_pow]
      have h := Nat.and_pow_two_sub_one_eq_mod (x / 2 ^ 4) 1
      norm_num at h ⊢
      try exact h
    rw [hb10v, hshift]
    cases ev.CA_controlled <;> simp <;> omega

end TSDuck

namespace TSDuck

theorem eitParseEvents_nil : eitParseEvents [] = [] := by
  rw [eitParseEvents]
  rfl

/-- Parsing a concatenation of complete fragments recovers one parsed event
per fragment, in order. -/
theorem eitParse_fragList (fr : List EITFrag)
    (h : ∀ f ∈ fr, ∃ ev, evFits ev ∧ ev.running_status < 8 ∧
      ev.event_id < 65536 ∧ f = fragOf ev) :
    eitParseEvents ((fr.map EITFrag.bytes).flatten) = fr.map fragParsed := by
  induction fr with
  | nil =>
    simpa using eitParseEvents_nil
  | cons f rest ih =>
    obtain ⟨ev, hfit, hrs, hid, rfl⟩ := h f (by simp)
    rw [List.map_cons, List.map_cons, List.flatten_cons]
    rw [eitParseEvents_frag_cons ev _ hfit hrs hid]
    rw [ih (fun g hg => h g (by simp [hg]))]

/-- Deserializing a serialized section payload is parsing its event area. -/
theorem eitDeserializeSection_payload (t o g d : Nat) (sec : List EITFrag) :
    eitDeserializeSection (eitSectionPayload t o g d sec) =
      eitParseEvents ((sec.map EITFrag.bytes).flatten) := by
  unfold eitDeserializeSection eitSectionPayload
  rw [if_neg (by simp)]
  simp only [List.cons_append, List.nil_append, List.drop_succ_cons, List.drop_zero]

/-- Claim C6: for every EIT whose events fit in one section each (with the
inherent field bounds: 3-bit `running_status`, 16-bit event id), serializing
writes each event's `running_status` and `CA_controlled` into the four
reserved bits of its 16-bit descriptor-loop-length field, and deserializing
every produced section reads exactly those values back: the parsed events,
over all sections in order, carry the original id, running status and CA
bit of each event. -/
theorem eit_reserved_bits_roundtrip (t o g d : Nat) (evs : List EITEvent)
    (hall : ∀ ev ∈ evs, evFits ev ∧ ev.running_status < 8 ∧ ev.event_id < 65536) :
    (((eitSerialize evs).map (fun sec =>
        eitDeserializeSection (eitSectionPayload t o g d sec))).flatten).map
      (fun p => (p.event_id, p.running_status, p.CA_controlled)) =
      evs.map (fun ev =>
        (ev.event_id, ev.running_status, if ev.CA_controlled then 1 else 0)) := by
  have hfits : ∀ ev ∈ evs, evFits ev := fun ev he => (hall ev he).1
  have hsecmap : (eitSerialize evs).map (fun sec =>
      eitDeserializeSection (eitSectionPayload t o g d sec)) =
      (eitSerialize evs).map (fun sec => sec.map fragParsed) := by
    apply List.map_congr_left
    intro sec hsec
    rw [eitDeserializeSection_payload]
    apply eitParse_fragList
    intro f hf
    have hmem : f ∈ (eitSerialize evs).flatten := List.mem_flatten_of_mem hsec hf
    rw [eitSerialize_frags evs hfits] at hmem
    obtain ⟨ev, hev, rfl⟩ := List.mem_map.mp hmem
    exact ⟨ev, (hall ev hev).1, (hall ev hev).2.1, (hall ev hev).2.2, rfl⟩
  rw [hsecmap, ← List.map_flatten, eitSerialize_frags evs hfits, List.map_map,
      List.map_map]
  rfl

/-- Closed instance of the EIT reserved-bits round trip on a two-event EIT. -/
theorem eit_reserved_bits_roundtrip_witness :
    (((eitSerialize [⟨0x1234, 7, 3725, 4, true, [[0x6A, 0x01, 0xC0]]⟩,
                     ⟨2, 0, 0, 1, false, []⟩]).map (fun sec =>
        eitDeserializeSection (eitSectionPayload 1 2 0 0x4E sec))).flatten).map
      (fun p => (p.event_id, p.running_status, p.CA_controlled)) =
      [(0x1234, 4, 1), (2, 1, 0)] :=
  eit_reserved_bits_roundtrip 1 2 0 0x4E
    [⟨0x1234, 7, 3725, 4, true, [[0x6A, 0x01, 0xC0]]⟩, ⟨2, 0, 0, 1, false, []⟩]
    (by decide)

end TSDuck
